import Mathlib

/-!
Verification development for `names.py`, a library for structured
power-system tag names (camel-case decomposition, BNF grammar expansion,
glob matching, CSV description merging, and an in-memory name registry).

Strings are modelled as `List Char`.  Python character classes and ASCII
case conversion are modelled over the ASCII alphabet, which is the
alphabet of every name grammar in the program.  Functions that can raise
a Python exception (`IndexError`, `ValueError`) are modelled as
`Option`-valued, with `none` for the raising executions; `exit(1)` is
modelled with `Except`.  The (potentially non-terminating) recursive
grammar expansion is modelled with an explicit recursion-depth fuel,
`none` standing for a run that exceeds every finite recursion depth.
-/

/-- Characters of the regex class `[A-Z]`. -/
def upperChars : List Char :=
  ['A', 'B', 'C', 'D', 'E', 'F', 'G', 'H', 'I', 'J', 'K', 'L', 'M',
   'N', 'O', 'P', 'Q', 'R', 'S', 'T', 'U', 'V', 'W', 'X', 'Y', 'Z']

/-- Characters of the regex class `[a-z]`. -/
def lowerChars : List Char :=
  ['a', 'b', 'c', 'd', 'e', 'f', 'g', 'h', 'i', 'j', 'k', 'l', 'm',
   'n', 'o', 'p', 'q', 'r', 's', 't', 'u', 'v', 'w', 'x', 'y', 'z']

/-- Characters of the regex class `[0-9]`. -/
def digitChars : List Char :=
  ['0', '1', '2', '3', '4', '5', '6', '7', '8', '9']

/-- Membership in the regex class `[A-Z]`. -/
def isUpperA (c : Char) : Bool := upperChars.contains c

/-- Membership in the regex class `[a-z]`. -/
def isLowerA (c : Char) : Bool := lowerChars.contains c

/-- Membership in the regex class `[0-9]` (Python `str.isdigit` on ASCII). -/
def isDigitA (c : Char) : Bool := digitChars.contains c

/-- Membership in the regex class `[0-9a-z]`. -/
def isLowerDigit (c : Char) : Bool := isLowerA c || isDigitA c

/-- Membership in the regex class `[A-Za-z0-9]`. -/
def isAlnumA (c : Char) : Bool := isUpperA c || isLowerA c || isDigitA c

/-- Membership in the name alphabet `[A-Za-z_0-9]` of `RE_NAME`. -/
def isNameChar (c : Char) : Bool := isAlnumA c || decide (c = '_')

/-- ASCII whitespace stripped by Python `str.lstrip`/`str.rstrip`. -/
def isPySpace (c : Char) : Bool :=
  decide (c = ' ') || decide (c = '\t') || decide (c = '\n') ||
  decide (c = '\x0d') || decide (c = '\x0b') || decide (c = '\x0c')

/-- ASCII lower-casing of one character, as Python `str.lower` acts on the
ASCII alphabet used by the naming convention. -/
def asciiLower (c : Char) : Char :=
  match c with
  | 'A' => 'a' | 'B' => 'b' | 'C' => 'c' | 'D' => 'd' | 'E' => 'e'
  | 'F' => 'f' | 'G' => 'g' | 'H' => 'h' | 'I' => 'i' | 'J' => 'j'
  | 'K' => 'k' | 'L' => 'l' | 'M' => 'm' | 'N' => 'n' | 'O' => 'o'
  | 'P' => 'p' | 'Q' => 'q' | 'R' => 'r' | 'S' => 's' | 'T' => 't'
  | 'U' => 'u' | 'V' => 'v' | 'W' => 'w' | 'X' => 'x' | 'Y' => 'y'
  | 'Z' => 'z' | d => d

/-- ASCII upper-casing of one character, as Python `str.upper` acts on the
ASCII alphabet used by the naming convention. -/
def asciiUpper (c : Char) : Char :=
  match c with
  | 'a' => 'A' | 'b' => 'B' | 'c' => 'C' | 'd' => 'D' | 'e' => 'E'
  | 'f' => 'F' | 'g' => 'G' | 'h' => 'H' | 'i' => 'I' | 'j' => 'J'
  | 'k' => 'K' | 'l' => 'L' | 'm' => 'M' | 'n' => 'N' | 'o' => 'O'
  | 'p' => 'P' | 'q' => 'Q' | 'r' => 'R' | 's' => 'S' | 't' => 'T'
  | 'u' => 'U' | 'v' => 'V' | 'w' => 'W' | 'x' => 'X' | 'y' => 'Y'
  | 'z' => 'Z' | d => d

/-- Python `s.split(sep)` for a one-character separator. -/
def pySplitOn (sep : Char) : List Char → List (List Char)
  | [] => [[]]
  | c :: cs =>
    if c = sep then [] :: pySplitOn sep cs
    else (c :: (pySplitOn sep cs).headD []) :: (pySplitOn sep cs).tail

/-- Python `str.splitlines` restricted to the newline character `\n`
(the only line separator occurring in the program's inputs). -/
def pySplitlines : List Char → List (List Char)
  | [] => []
  | c :: cs =>
    if c = '\n' then [] :: pySplitlines cs
    else (c :: (pySplitlines cs).headD []) :: (pySplitlines cs).tail

/-- Python `str.lstrip().rstrip()` (the module's `strip`, and the local
`lrstrip` of `bnf_to_rules`). -/
def strip (s : List Char) : List Char :=
  ((s.dropWhile isPySpace).reverse.dropWhile isPySpace).reverse

/-- The scanner of `re.sub(r'([A-Z][a-z]*[0-9a-z]*)', '_\\1_', nm)`.
Each leftmost-longest match of the pattern — an uppercase letter followed
by the maximal run of `[0-9a-z]` characters, since the two greedy stars
`[a-z]*[0-9a-z]*` together consume exactly that run — is wrapped in
underscores, every other character is copied unchanged.  The Boolean
state records whether the scanner is inside a match, so that the closing
underscore of the current match is emitted before the following
character (or a second underscore when a new match starts at once). -/
def markPartsAux : Bool → List Char → List Char
  | inRun, [] => if inRun then ['_'] else []
  | inRun, c :: cs =>
    if inRun then
      if isLowerDigit c then c :: markPartsAux true cs
      else if isUpperA c then '_' :: '_' :: c :: markPartsAux true cs
      else '_' :: c :: markPartsAux false cs
    else
      if isUpperA c then '_' :: c :: markPartsAux true cs
      else c :: markPartsAux false cs

/-- Result of the `re.sub` call inside `parts`. -/
def markParts (nm : List Char) : List Char := markPartsAux false nm

/-- Transcribes `parts`: mark the camel-case segments, split on `_`, and
keep the non-empty pieces. -/
def parts (nm : List Char) : List (List Char) :=
  (pySplitOn '_' (markParts nm)).filter (fun pn => !pn.isEmpty)

/-- Transcribes `parts_join`: concatenate the part names. -/
def parts_join (pnl : List (List Char)) : List Char := pnl.flatten

/-- Transcribes `device`: the first element of `parts nm`.  Python raises
`IndexError` when `parts nm` is empty (a name of underscores only).  The
default `[]` of `headD` is never load-bearing below: every theorem
either proves `parts nm` non-empty, or — for the registry query, whose
Python original raises inside this call — hypothesizes a registry on
which that raising path is unreachable. -/
def device (nm : List Char) : List Char := (parts nm).headD []

/-- Decimal digit character, for modelling Python `str(n)`. -/
def digitChar : Nat → Char
  | 0 => '0' | 1 => '1' | 2 => '2' | 3 => '3' | 4 => '4'
  | 5 => '5' | 6 => '6' | 7 => '7' | 8 => '8' | 9 => '9' | _ => '?'

/-- Fuel-indexed decimal printer (the fuel makes the `n / 10` recursion
structural; `toDecimal` always supplies enough). -/
def toDecimalAux : Nat → Nat → List Char
  | 0, _ => []
  | f + 1, n =>
    if n < 10 then [digitChar n]
    else toDecimalAux f (n / 10) ++ [digitChar (n % 10)]

/-- Python `str(n)` for a natural number. -/
def toDecimal (n : Nat) : List Char := toDecimalAux (n + 1) n

/-- Numeric value of a decimal digit character. -/
def digitVal : Char → Nat
  | '0' => 0 | '1' => 1 | '2' => 2 | '3' => 3 | '4' => 4
  | '5' => 5 | '6' => 6 | '7' => 7 | '8' => 8 | '9' => 9 | _ => 0

/-- Value of a string of decimal digits. -/
def parseDigits (l : List Char) : Nat :=
  l.foldl (fun acc c => 10 * acc + digitVal c) 0

/-- Python `int(s)` on the strings reachable here (no sign, no spaces, no
underscore — the argument is a slice of one underscore-free part):
defined on non-empty all-digit strings, `ValueError` otherwise. -/
def pyInt (l : List Char) : Option Nat :=
  if l ≠ [] ∧ l.all isDigitA then some (parseDigits l) else none

/-- Transcribes `device_number`: index the device's characters, keep the
digit positions, and parse the device from the first digit position on.
`none` models the `IndexError` of `digits[0]` on a digit-free device and
the `ValueError` of `int` on a non-digit suffix. -/
def device_number (nm : List Char) : Option Nat :=
  let nd := device nm
  match (List.range nd.length).filter (fun i => isDigitA (nd.getD i ' ')) with
  | [] => none
  | i :: _ => pyInt ((device nd).drop i)

/-- Transcribes `is_parameter`: whether the last part is `Pa`.  `none`
models the `IndexError` of `parts(nm)[-1]` when `parts nm` is empty. -/
def is_parameter (nm : List Char) : Option Bool :=
  ((parts nm).getLast?).map (fun p => decide (p = ['P', 'a']))

/-- Transcribes `kind`: the second-to-last part for a parameter, the last
part otherwise, `none` for the raising executions. -/
def kind (nm : List Char) : Option (List Char) :=
  match is_parameter nm with
  | none => none
  | some true => (parts nm).reverse.tail.head?
  | some false => (parts nm).getLast?

/-- Python `'_'.join`. -/
def joinUnd : List (List Char) → List Char
  | [] => []
  | [p] => p
  | p :: ps => p ++ '_' :: joinUnd ps

/-- Transcribes `name_to_lower`: join the parts with `_` and lower-case
the result. -/
def name_to_lower (nm : List Char) : List Char :=
  (joinUnd (parts nm)).map asciiLower

/-- The loop of `lower_to_name`: the flag is Python's `u`, true when the
next non-underscore character must be upper-cased. -/
def lower_to_name_aux : Bool → List Char → List Char
  | _, [] => []
  | u, c :: cs =>
    if c = '_' then lower_to_name_aux true cs
    else (if u then asciiUpper c else c) :: lower_to_name_aux false cs

/-- Transcribes `lower_to_name`. -/
def lower_to_name (nm : List Char) : List Char := lower_to_name_aux true nm

/-- Split a character-class body at its first `]` (the scan of
`fnmatch.translate` for the closing bracket). -/
def findClose : List Char → Option (List Char × List Char)
  | [] => none
  | ']' :: r => some ([], r)
  | c :: r => (findClose r).map (fun q => (c :: q.1, q.2))

/-- Parse a glob character class after an opening `[`: optional `!`
negation, a first `]` taken literally, then everything up to the closing
`]`.  `none` when the bracket is unclosed (then `[` is a literal). -/
def parseCl (p : List Char) : Option (Bool × List Char × List Char) :=
  match p with
  | '!' :: ']' :: r => (findClose r).map (fun q => (true, ']' :: q.1, q.2))
  | '!' :: r => (findClose r).map (fun q => (true, q.1, q.2))
  | ']' :: r => (findClose r).map (fun q => (false, ']' :: q.1, q.2))
  | r => (findClose r).map (fun q => (false, q.1, q.2))

/-- Membership of a character in a parsed class body, with `a-b` ranges
and a trailing or leading `-` taken literally. -/
def inClass : List Char → Char → Bool
  | [], _ => false
  | a :: '-' :: b :: rest, c => (a ≤ c && c ≤ b) || inClass rest c
  | a :: rest, c => decide (a = c) || inClass rest c

/-- Fuel-indexed glob matcher for one `fnmatch.fnmatchcase` pattern:
`*` any run, `?` any one character, `[...]`/`[!...]` classes, everything
else literal.  Every recursive call shortens pattern-plus-value, so
`globMatch` below always supplies enough fuel. -/
def globMatchF : Nat → List Char → List Char → Bool
  | 0, _, _ => false
  | f + 1, p, s =>
    match p, s with
    | [], s => s.isEmpty
    | '*' :: p1, s =>
      globMatchF f p1 s ||
        (match s with
         | [] => false
         | _ :: s1 => globMatchF f ('*' :: p1) s1)
    | '?' :: p1, s =>
      (match s with
       | [] => false
       | _ :: s1 => globMatchF f p1 s1)
    | '[' :: p1, s =>
      (match parseCl p1 with
       | none =>
         (match s with
          | [] => false
          | c :: s1 => decide (c = '[') && globMatchF f p1 s1)
       | some q =>
         (match s with
          | [] => false
          | c :: s1 => (inClass q.2.1 c != q.1) && globMatchF f q.2.2 s1))
    | a :: p1, s =>
      (match s with
       | [] => false
       | c :: s1 => decide (a = c) && globMatchF f p1 s1)

/-- Python `fnmatch.fnmatchcase(s, p)`. -/
def globMatch (p s : List Char) : Bool :=
  globMatchF (p.length + s.length + 1) p s

/-- Transcribes `match`: split the pattern on `|` and glob-match the
value against each alternative. -/
def pyMatch (n pat : List Char) : Bool :=
  (pySplitOn '|' pat).any (fun p => globMatch p n)

/-- Transcribes `bigname`: the first character is uppercase.  Python
raises `IndexError` on the empty name; the claims only evaluate
`bigname` where the program does not. -/
def bigname (nm : List Char) : Bool := isUpperA (nm.headD '?')

/-- Python string comparison (lexicographic by code point), for `sorted`. -/
def lexLt : List Char → List Char → Bool
  | [], [] => false
  | [], _ :: _ => true
  | _ :: _, [] => false
  | a :: as, b :: bs => if a = b then lexLt as bs else decide (a < b)

/-- Insert into a sorted list (for the `sorted` model). -/
def insLex (x : List Char) : List (List Char) → List (List Char)
  | [] => [x]
  | y :: ys => if lexLt x y then x :: y :: ys else y :: insLex x ys

/-- Python `sorted` on a collection of strings. -/
def isortLex (l : List (List Char)) : List (List Char) :=
  l.foldr insLex []

/-- Assignment `d[k] = v` on an insertion-ordered dictionary: overwrite
in place when the key exists, append otherwise. -/
def dictInsert {α : Type} (k : List Char) (v : α) :
    List (List Char × α) → List (List Char × α)
  | [] => [(k, v)]
  | (k1, v1) :: rest =>
    if k1 = k then (k, v) :: rest else (k1, v1) :: dictInsert k v rest

/-- Dictionary lookup `d[k]` / `k in d`. -/
def dictGet {α : Type} (k : List Char) :
    List (List Char × α) → Option α
  | [] => none
  | (k1, v1) :: rest => if k1 = k then some v1 else dictGet k rest

/-- The registry state: the module-level `named`, `unitd`, `shortd` and
`longd` tables (keys in insertion order, as in a Python dict). -/
structure NamesSt where
  named : List (List Char × Bool)
  unitd : List (List Char × List Char)
  shortd : List (List Char × List Char)
  longd : List (List Char × List Char)

/-- The empty registry produced by `clear_names`. -/
def clear_names : NamesSt := ⟨[], [], [], []⟩

/-- Transcribes `valid_name`, which accepts everything. -/
def valid_name (_nm : List Char) : Bool := true

/-- Transcribes `name`: the guarding `assert valid_name(nm)` is modelled
as a `none` result when it would fire. -/
def name (st : NamesSt) (nm un sh lo : List Char) : Option NamesSt :=
  if valid_name nm = true then
    some ⟨dictInsert nm true st.named, dictInsert nm un st.unitd,
          dictInsert nm sh st.shortd, dictInsert nm lo st.longd⟩
  else none

/-- Transcribes `names`: filter the registered names by the four
criteria and sort the survivors. -/
def names (st : NamesSt) (only excludes device_pat : List Char)
    (onlybig : Bool) : List (List Char) :=
  isortLex ((st.named.map Prod.fst).filter (fun v =>
    pyMatch v only && !(pyMatch v excludes) &&
      pyMatch (device v) device_pat &&
      (if onlybig then bigname v else true)))

/-- Transcribes `finished`: no `<` and no `|` is left in the string. -/
def finished (s : List Char) : Bool :=
  !(s.contains '<') && !(s.contains '|')

/-- Python `s.replace(pat, rep, 1)`: replace the first occurrence of
`pat` (at the leftmost position where it is a prefix of the rest),
return `s` unchanged when `pat` does not occur. -/
def replaceFirst (pat rep : List Char) : List Char → List Char
  | [] => if pat.isPrefixOf ([] : List Char) then rep else []
  | c :: cs =>
    if pat.isPrefixOf (c :: cs) then rep ++ (c :: cs).drop pat.length
    else c :: replaceFirst pat rep cs

/-- Python `set.union` on the no-duplicate list model of a set. -/
def setUnion (a b : List (List Char)) : List (List Char) :=
  a ++ b.filter (fun x => !(decide (x ∈ a)))

/-- The substitution candidates of one `expand_rules` step: for every
rule `(lhs, rhs)` of the table in order and every `|`-alternative `c` of
`rhs` in order, the string `s.replace(lhs, c, 1)`. -/
def candidates (rules : List (List Char × List Char)) (s : List Char) :
    List (List Char) :=
  (rules.map (fun r => (pySplitOn '|' r.2).map
    (fun c => replaceFirst r.1 c s))).flatten

/-- The loop of `expand_rules` over the candidate substitutions:
candidates equal to `s` contribute nothing, the others are expanded by
`rec` (the recursive call at the remaining fuel) and their results are
unioned into the accumulator.  `none` from a branch (fuel exhausted)
aborts the whole call, as a Python `RecursionError` would. -/
def expandLoop (rec : List Char → Option (List (List Char)))
    (s : List Char) :
    List (List Char) → List (List Char) → Option (List (List Char))
  | [], acc => some acc
  | u :: us, acc =>
    if u = s then expandLoop rec s us acc
    else
      match rec u with
      | none => none
      | some t => expandLoop rec s us (setUnion acc t)

/-- Transcribes `expand_rules`, with fuel bounding the recursion depth:
a finished string is its own singleton result, otherwise every
substitution candidate that changes the string is expanded recursively
and the results are unioned. -/
def expandRulesF : Nat → List (List Char × List Char) → List Char →
    Option (List (List Char))
  | 0, _, _ => none
  | f + 1, rules, s =>
    if finished s then some [s]
    else expandLoop (expandRulesF f rules) s (candidates rules s) []

/-- Python `s.split('::=')` restricted to the length test of
`bnf_to_rules`: the full split on the separator `::=`.  (The Python call
caps at two splits; both versions yield exactly two pieces on the same
lines, and only that case is used.) -/
def splitCC : List Char → List (List Char)
  | [] => [[]]
  | ':' :: ':' :: '=' :: rest => [] :: splitCC rest
  | c :: cs => (c :: (splitCC cs).headD []) :: (splitCC cs).tail

/-- One line of `bnf_to_rules`: skip blank and `#` lines, record a
`lhs ::= rhs` line by dictionary assignment (a later line for the same
left-hand side overwrites the earlier one), skip malformed lines. -/
def bnfLine (g : List (List Char × List Char)) (line : List Char) :
    List (List Char × List Char) :=
  let l := strip line
  if l = [] then g
  else if l.headD ' ' = '#' then g
  else
    match splitCC l with
    | [a, b] => dictInsert (strip a) (strip b) g
    | _ => g

/-- Transcribes `bnf_to_rules`. -/
def bnf_to_rules (grammar : List Char) : List (List Char × List Char) :=
  (pySplitlines grammar).foldl bnfLine []

/-- Transcribes `expand_bnf` (with the expansion fuel): parse the
grammar, expand the start symbol, sort the result set. -/
def expand_bnf (fuel : Nat) (grammar start : List Char) :
    Option (List (List Char)) :=
  (expandRulesF fuel (bnf_to_rules grammar) start).map isortLex

/-- The description tables mutated by `read_description`: the local rule
table `g` and the module tables. -/
structure DescSt where
  g : List (List Char × List Char)
  partnamed : List (List Char × List Char)
  ruled : List (List Char × List Char)
  unitd : List (List Char × List Char)
  shortd : List (List Char × List Char)
  longd : List (List Char × List Char)

/-- The tables before any row is read. -/
def descInit : DescSt := ⟨[], [], [], [], [], []⟩

/-- Row routing of `read_description` for one well-formed (5-column)
row: comment rows change no routing table; a `<...>` name is a grammar
production (a `|rhs` rule appends alternatives unless the existing
production is absent or empty, any other rhs overwrites); a `<...>` rule
field adds the name as an alternative of that nonterminal; anything else
is a plain description; non-blank units/short/long fields are recorded
unconditionally under the name. -/
def stepRow (st : DescSt) (row : List (List Char)) : DescSt :=
  let nm := strip (row.getD 0 [])
  let rl := strip (row.getD 1 [])
  let un := strip (row.getD 2 [])
  let sh := strip (row.getD 3 [])
  let lo := strip (row.getD 4 [])
  let st1 : DescSt :=
    if nm ≠ [] ∧ nm.headD ' ' = '#' then st
    else if nm.contains '<' then
      (if rl ≠ [] ∧ rl.headD ' ' = '|' then
        (if dictGet nm st.g = none ∨ dictGet nm st.g = some [] then
          ⟨dictInsert nm rl.tail st.g, st.partnamed, st.ruled,
           st.unitd, st.shortd, st.longd⟩
         else
          ⟨dictInsert nm ((dictGet nm st.g).getD [] ++ rl) st.g,
           st.partnamed, st.ruled, st.unitd, st.shortd, st.longd⟩)
       else
        ⟨dictInsert nm rl st.g, st.partnamed, st.ruled,
         st.unitd, st.shortd, st.longd⟩)
    else if rl.contains '<' then
      (match dictGet rl st.g with
       | some old =>
         ⟨dictInsert rl (old ++ '|' :: nm) st.g, st.partnamed, st.ruled,
          st.unitd, st.shortd, st.longd⟩
       | none =>
         ⟨dictInsert rl nm st.g, st.partnamed, st.ruled,
          st.unitd, st.shortd, st.longd⟩)
    else
      ⟨st.g, dictInsert nm (strip nm) st.partnamed,
       dictInsert nm (strip rl) st.ruled, st.unitd, st.shortd, st.longd⟩
  let st2 : DescSt :=
    if un ≠ [] then
      ⟨st1.g, st1.partnamed, st1.ruled, dictInsert nm un st1.unitd,
       st1.shortd, st1.longd⟩
    else st1
  let st3 : DescSt :=
    if sh ≠ [] then
      ⟨st2.g, st2.partnamed, st2.ruled, st2.unitd,
       dictInsert nm sh st2.shortd, st2.longd⟩
    else st2
  if lo ≠ [] then
    ⟨st3.g, st3.partnamed, st3.ruled, st3.unitd, st3.shortd,
     dictInsert nm lo st3.longd⟩
  else st3

/-- The row loop of `read_description`: count every row, skip rows with
no field, pad a 4-column row with an empty `Long`, abort (`exit(1)`,
modelled as `Except.error`) when the width is still not 5, skip the
first counted row as the header, and route every other row. -/
def rdGo : List (List (List Char)) → Nat → DescSt → Except Unit DescSt
  | [], _, st => Except.ok st
  | row :: rest, line, st =>
    if row.length = 0 then rdGo rest (line + 1) st
    else
      let row2 := if row.length = 4 then row ++ [[]] else row
      if row2.length ≠ 5 then Except.error ()
      else if line + 1 = 1 then rdGo rest (line + 1) st
      else rdGo rest (line + 1) (stepRow st row2)

/-- Transcribes `read_description`, with the CSV file modelled as the
list of its parsed rows (the `csv` module is an external collaborator). -/
def read_description (rows : List (List (List Char))) :
    Except Unit DescSt :=
  rdGo rows 0 descInit

/-- Whether the description reader completed without the fatal exit. -/
def descOk : Except Unit DescSt → Bool
  | Except.ok _ => true
  | Except.error _ => false

/-! ### Character-class facts -/

theorem mem_of_isUpperA {c : Char} (h : isUpperA c = true) : c ∈ upperChars := by
  simpa [isUpperA] using h

theorem mem_of_isLowerA {c : Char} (h : isLowerA c = true) : c ∈ lowerChars := by
  simpa [isLowerA] using h

theorem mem_of_isDigitA {c : Char} (h : isDigitA c = true) : c ∈ digitChars := by
  simpa [isDigitA] using h

theorem upper_ne_underscore {c : Char} (h : isUpperA c = true) : ¬ c = '_' := by
  intro hc
  subst hc
  exact absurd h (by decide)

theorem lowerDigit_ne_underscore {c : Char} (h : isLowerDigit c = true) :
    ¬ c = '_' := by
  intro hc
  subst hc
  exact absurd h (by decide)

theorem upper_not_lowerDigit {c : Char} (h : isUpperA c = true) :
    isLowerDigit c = false := by
  have hm := mem_of_isUpperA h
  have hall : upperChars.all (fun c => !isLowerDigit c) = true := by decide
  simpa using List.all_eq_true.mp hall c hm

theorem upper_not_digit {c : Char} (h : isUpperA c = true) :
    isDigitA c = false := by
  have hm := mem_of_isUpperA h
  have hall : upperChars.all (fun c => !isDigitA c) = true := by decide
  simpa using List.all_eq_true.mp hall c hm

theorem lower_not_digit {c : Char} (h : isLowerA c = true) :
    isDigitA c = false := by
  have hm := mem_of_isLowerA h
  have hall : lowerChars.all (fun c => !isDigitA c) = true := by decide
  simpa using List.all_eq_true.mp hall c hm

theorem lower_isLowerDigit {c : Char} (h : isLowerA c = true) :
    isLowerDigit c = true := by
  simp [isLowerDigit, h]

theorem upper_of_alnum_not_lowerDigit {c : Char} (h1 : isAlnumA c = true)
    (h2 : isLowerDigit c = false) : isUpperA c = true := by
  simp only [isAlnumA, Bool.or_eq_true] at h1
  rcases h1 with (h | h) | h
  · exact h
  · have hld : isLowerDigit c = true := by simp [isLowerDigit, h]
    rw [h2] at hld
    exact absurd hld (by simp)
  · have hld : isLowerDigit c = true := by simp [isLowerDigit, h]
    rw [h2] at hld
    exact absurd hld (by simp)

theorem asciiUpper_asciiLower {c : Char} (h : isUpperA c = true) :
    asciiUpper (asciiLower c) = c := by
  have hm := mem_of_isUpperA h
  have hall :
      upperChars.all (fun c => decide (asciiUpper (asciiLower c) = c)) = true := by
    decide
  simpa using List.all_eq_true.mp hall c hm

theorem asciiLower_lower_of_upper {c : Char} (h : isUpperA c = true) :
    isLowerA (asciiLower c) = true := by
  have hm := mem_of_isUpperA h
  have hall : upperChars.all (fun c => isLowerA (asciiLower c)) = true := by decide
  simpa using List.all_eq_true.mp hall c hm

theorem asciiLower_fix_of_lowerDigit {c : Char} (h : isLowerDigit c = true) :
    asciiLower c = c := by
  simp only [isLowerDigit, Bool.or_eq_true] at h
  rcases h with h | h
  · have hm := mem_of_isLowerA h
    have hall : lowerChars.all (fun c => decide (asciiLower c = c)) = true := by
      decide
    simpa using List.all_eq_true.mp hall c hm
  · have hm := mem_of_isDigitA h
    have hall : digitChars.all (fun c => decide (asciiLower c = c)) = true := by
      decide
    simpa using List.all_eq_true.mp hall c hm

/-! ### Facts about `pySplitOn` -/

theorem pySplitOn_ne_nil (sep : Char) (l : List Char) :
    pySplitOn sep l ≠ [] := by
  cases l with
  | nil => simp [pySplitOn]
  | cons c cs =>
    by_cases h : c = sep <;> simp [pySplitOn, h]

theorem pySplitOn_shape (sep : Char) (l : List Char) :
    ∃ h t, pySplitOn sep l = h :: t := by
  rcases he : pySplitOn sep l with _ | ⟨h, t⟩
  · exact absurd he (pySplitOn_ne_nil sep l)
  · exact ⟨h, t, rfl⟩

theorem flatten_pySplitOn (sep : Char) (l : List Char) :
    (pySplitOn sep l).flatten = l.filter (fun c => !(decide (c = sep))) := by
  induction l with
  | nil => simp [pySplitOn]
  | cons c cs ih =>
    by_cases h : c = sep
    · simp [pySplitOn, h, ih]
    · obtain ⟨h1, t1, ht⟩ := pySplitOn_shape sep cs
      have : (pySplitOn sep cs).flatten = h1 ++ t1.flatten := by rw [ht]; simp
      simp [pySplitOn, h, ht] at ih ⊢
      simpa [ht] using ih

theorem pySplitOn_append_sep (sep : Char) (a m : List Char) :
    pySplitOn sep (a ++ sep :: m) = pySplitOn sep a ++ pySplitOn sep m := by
  induction a with
  | nil => simp [pySplitOn]
  | cons c cs ih =>
    by_cases h : c = sep
    · simp [pySplitOn, h, ih]
    · obtain ⟨h1, t1, ht⟩ := pySplitOn_shape sep cs
      simp [pySplitOn, h, ih, ht]

theorem pySplitOn_no_sep (sep : Char) (l : List Char)
    (h : ∀ c ∈ l, ¬ c = sep) : pySplitOn sep l = [l] := by
  induction l with
  | nil => simp [pySplitOn]
  | cons c cs ih =>
    have hc : ¬ c = sep := h c (by simp)
    have ih2 : pySplitOn sep cs = [cs] := ih (fun d hd => h d (by simp [hd]))
    simp [pySplitOn, hc, ih2]

/-! ### The parts round-trip (claim C1) -/

theorem flatten_filter_empty (L : List (List Char)) :
    (L.filter (fun p => !p.isEmpty)).flatten = L.flatten := by
  induction L with
  | nil => rfl
  | cons p t ih =>
    by_cases hp : p.isEmpty
    · have : p = [] := by simpa using hp
      simp [this, ih]
    · simp [hp, ih]

theorem filter_markPartsAux (l : List Char) : ∀ b,
    (markPartsAux b l).filter (fun c => !(decide (c = '_'))) =
      l.filter (fun c => !(decide (c = '_'))) := by
  induction l with
  | nil =>
    intro b
    cases b <;> simp [markPartsAux]
  | cons c cs ih =>
    intro b
    cases b
    · by_cases hu : isUpperA c
      · have hne : ¬ c = '_' := upper_ne_underscore hu
        simp [markPartsAux, hu, ih, hne]
      · have hstep : markPartsAux false (c :: cs) = c :: markPartsAux false cs := by
          simp [markPartsAux, hu]
        rw [hstep, List.filter_cons, List.filter_cons, ih false]
    · by_cases hld : isLowerDigit c
      · have hne : ¬ c = '_' := lowerDigit_ne_underscore hld
        simp [markPartsAux, hld, ih, hne]
      · by_cases hu : isUpperA c
        · have hne : ¬ c = '_' := upper_ne_underscore hu
          simp [markPartsAux, hld, hu, ih, hne]
        · have hstep :
              markPartsAux true (c :: cs) = '_' :: c :: markPartsAux false cs := by
            simp [markPartsAux, hld, hu]
          rw [hstep, List.filter_cons, List.filter_cons, List.filter_cons, ih false]
          simp

/-- C1.  Parts round-trip: joining the parts of a string over the name
alphabet that contains no underscore reconstructs the string exactly. -/
theorem parts_roundtrip_no_underscore (s : List Char)
    (halpha : ∀ c ∈ s, isNameChar c = true) (hund : '_' ∉ s) :
    parts_join (parts s) = s := by
  unfold parts_join parts markParts
  rw [flatten_filter_empty, flatten_pySplitOn, filter_markPartsAux]
  apply List.filter_eq_self.mpr
  intro a ha
  simp only [Bool.not_eq_true', decide_eq_false_iff_not]
  intro hae
  exact hund (hae ▸ ha)

/-- Witness for C1 at the concrete name `Gen1P`. -/
theorem parts_roundtrip_no_underscore_witness :
    parts_join (parts ['G', 'e', 'n', '1', 'P']) = ['G', 'e', 'n', '1', 'P'] :=
  parts_roundtrip_no_underscore ['G', 'e', 'n', '1', 'P'] (by decide) (by decide)

/-! ### Dictionary assignment (claims C3 and C10) -/

theorem dictGet_dictInsert {α : Type} (k : List Char) (v : α)
    (d : List (List Char × α)) : dictGet k (dictInsert k v d) = some v := by
  induction d with
  | nil => simp [dictInsert, dictGet]
  | cons e rest ih =>
    by_cases h : e.1 = k
    · simp [dictInsert, h, dictGet]
    · simp [dictInsert, h, dictGet, ih]

/-- C10.  Name validation is vacuous: `valid_name` accepts every string,
so the assertion guarding `name` never fires and registration records
any string in the `named` table. -/
theorem valid_name_vacuous :
    ∀ (nm : List Char) (st : NamesSt) (un sh lo : List Char),
      valid_name nm = true ∧
      ∃ st2, name st nm un sh lo = some st2 ∧
        dictGet nm st2.named = some true := by
  intro nm st un sh lo
  exact ⟨rfl, ⟨_, rfl, dictGet_dictInsert nm true st.named⟩⟩

/-- C3.  Grammar redefinition overwrites: dictionary assignment in
`bnf_to_rules` replaces the stored right-hand side of a left-hand side
completely, and on the concrete two-line grammar only the later
definition survives, so `expand_bnf` produces `["world"]`. -/
theorem grammar_redefinition_overwrites :
    (∀ (g : List (List Char × List Char)) (k v : List Char),
        dictGet k (dictInsert k v g) = some v) ∧
    bnf_to_rules ("<s> ::= hello\n<s> ::= world".data) =
      [("<s>".data, "world".data)] ∧
    expand_bnf 2 ("<s> ::= hello\n<s> ::= world".data) ("<s>".data) =
      some ["world".data] := by
  exact ⟨fun g k v => dictGet_dictInsert k v g, by decide, by decide⟩

/-! ### Glob matching and the registry query (claim C4) -/

theorem mem_insLex {x y : List Char} {l : List (List Char)} :
    x ∈ insLex y l ↔ x = y ∨ x ∈ l := by
  induction l with
  | nil => simp [insLex]
  | cons z zs ih =>
    by_cases h : lexLt y z
    · simp [insLex, h]
    · simp [insLex, h, ih]
      tauto

theorem mem_isortLex {x : List Char} {l : List (List Char)} :
    x ∈ isortLex l ↔ x ∈ l := by
  induction l with
  | nil => simp [isortLex]
  | cons y ys ih =>
    show x ∈ insLex y (isortLex ys) ↔ _
    rw [mem_insLex, ih]
    simp

theorem glob_star (v : List Char) : globMatch ['*'] v = true := by
  induction v with
  | nil => decide
  | cons c v2 ih =>
    have h : globMatch ['*'] (c :: v2) =
        (globMatchF (1 + v2.length + 1) [] (c :: v2) || globMatch ['*'] v2) :=
      rfl
    rw [h, ih, Bool.or_true]

theorem pyMatch_empty_pattern (v : List Char) : pyMatch v [] = v.isEmpty := by
  have h : pyMatch v [] = (globMatch [] v || false) := rfl
  have h2 : globMatch [] v = v.isEmpty := rfl
  rw [h, h2, Bool.or_false]

theorem pyMatch_star (v : List Char) : pyMatch v ['*'] = true := by
  have h : pyMatch v ['*'] = (globMatch ['*'] v || false) := rfl
  rw [h, glob_star, Bool.true_or]

/-- C4 counterexample.  The empty pattern has the empty string as its
single `|`-alternative, so `match('', '')` is true — not false as the
claim states for every value — and with the empty name registered the
empty excludes pattern does exclude it from the query result. -/
theorem empty_pattern_matches_empty_value :
    pyMatch [] [] = true ∧
    names ⟨[([], true)], [], [], []⟩ ['*'] [] ['*'] false = [] := by
  exact ⟨by decide, by decide⟩

/-- C4 as amended.  Splitting the empty pattern on `|` yields one empty
alternative, which glob-matches exactly the empty value: `match(v, '')`
is false for every non-empty `v` and true for the empty `v`.  Hence, on
a registry where the query itself is defined — every registered name is
empty or decomposes into at least one part, since Python's `names`
raises `IndexError` inside `device` on a registered non-empty name of
underscores only — an empty excludes pattern excludes only the empty
name: every non-empty registered name appears in the query result. -/
theorem empty_pattern_excludes_only_empty :
    (∀ v : List Char, v ≠ [] → pyMatch v [] = false) ∧
    pyMatch [] [] = true ∧
    (∀ (st : NamesSt) (v : List Char),
        (∀ w ∈ st.named.map Prod.fst, w = [] ∨ parts w ≠ []) →
        v ∈ st.named.map Prod.fst → v ≠ [] →
        v ∈ names st ['*'] [] ['*'] false) := by
  refine ⟨?_, by decide, ?_⟩
  · intro v hv
    rw [pyMatch_empty_pattern]
    cases v with
    | nil => exact absurd rfl hv
    | cons c cs => rfl
  · intro st v _hsafe hv hne
    unfold names
    rw [mem_isortLex]
    apply List.mem_filter.mpr
    refine ⟨hv, ?_⟩
    rw [pyMatch_star, pyMatch_star, pyMatch_empty_pattern]
    cases v with
    | nil => exact absurd rfl hne
    | cons c cs => rfl

/-- Witness for the amended C4 at the one-character name `a`. -/
theorem empty_pattern_excludes_only_empty_witness :
    pyMatch ['a'] [] = false ∧
    ['a'] ∈ names ⟨[(['a'], true)], [], [], []⟩ ['*'] [] ['*'] false :=
  ⟨empty_pattern_excludes_only_empty.1 ['a'] (by decide),
   empty_pattern_excludes_only_empty.2.2 ⟨[(['a'], true)], [], [], []⟩ ['a']
     (by decide) (by decide) (by decide)⟩

/-! ### Grammar expansion (claims C2 and C9) -/

theorem mem_candidates {rules : List (List Char × List Char)}
    {s u : List Char} :
    u ∈ candidates rules s ↔
      ∃ lhs rhs, (lhs, rhs) ∈ rules ∧
        ∃ c ∈ pySplitOn '|' rhs, u = replaceFirst lhs c s := by
  simp only [candidates, List.mem_flatten, List.mem_map]
  constructor
  · rintro ⟨l, ⟨⟨lhs, rhs⟩, hr, rfl⟩, hu⟩
    rcases List.mem_map.mp hu with ⟨c, hc, rfl⟩
    exact ⟨lhs, rhs, hr, c, hc, rfl⟩
  · rintro ⟨lhs, rhs, hr, c, hc, rfl⟩
    exact ⟨_, ⟨⟨lhs, rhs⟩, hr, rfl⟩, List.mem_map.mpr ⟨c, hc, rfl⟩⟩

theorem expandLoop_const (g : List Char → Option (List (List Char)))
    (s : List Char) :
    ∀ (us : List (List Char)) (acc : List (List Char)),
      (∀ u ∈ us, u = s) → expandLoop g s us acc = some acc := by
  intro us
  induction us with
  | nil => intro acc _; rfl
  | cons u rest ih =>
    intro acc h
    have hu : u = s := h u (by simp)
    simp only [expandLoop, if_pos hu]
    exact ih acc (fun u2 h2 => h u2 (by simp [h2]))

/-- C9.  Undefined nonterminal is not a crash: on an unfinished string
that no rule of the table can rewrite to a different string,
`expand_rules` returns the empty set without error (here: `some []`
rather than the fuel-exhaustion `none`, at any recursion budget). -/
theorem undefined_nonterminal_empty (f : Nat)
    (rules : List (List Char × List Char)) (s : List Char)
    (hunf : finished s = false)
    (hfix : ∀ lhs rhs, (lhs, rhs) ∈ rules →
      ∀ c ∈ pySplitOn '|' rhs, replaceFirst lhs c s = s) :
    expandRulesF (f + 1) rules s = some [] := by
  have hcand : ∀ u ∈ candidates rules s, u = s := by
    intro u hu
    rcases mem_candidates.mp hu with ⟨lhs, rhs, hr, c, hc, rfl⟩
    exact hfix lhs rhs hr c hc
  simp only [expandRulesF, hunf]
  simp only [Bool.false_eq_true, if_false]
  exact expandLoop_const (expandRulesF f rules) s (candidates rules s) [] hcand

/-- Witness for C9: the undefined nonterminal `<x>` under the empty rule
table expands to the empty result set without error. -/
theorem undefined_nonterminal_empty_witness :
    expandRulesF 1 [] ['<', 'x', '>'] = some [] :=
  undefined_nonterminal_empty 0 [] ['<', 'x', '>'] (by decide)
    (fun lhs rhs h => absurd h (List.not_mem_nil _))

/-! ### Description-row width handling (claim C8) -/

theorem rdGo_error_iff :
    ∀ (rows : List (List (List Char))) (line : Nat) (st : DescSt),
      rdGo rows line st = Except.error () ↔
        ∃ r ∈ rows, ¬(r.length = 0 ∨ r.length = 4 ∨ r.length = 5) := by
  intro rows
  induction rows with
  | nil => intro line st; simp [rdGo]
  | cons row rest ih =>
    intro line st
    by_cases h0 : row.length = 0
    · have hrow : row = [] := List.length_eq_zero.mp h0
      subst hrow
      simp [rdGo, ih]
    · by_cases h4 : row.length = 4
      · by_cases hl : line + 1 = 1
        · simp [rdGo, h0, h4, hl, ih, List.length_append]
        · simp [rdGo, h0, h4, hl, ih, List.length_append]
      · by_cases h5 : row.length = 5
        · by_cases hl : line + 1 = 1
          · simp [rdGo, h0, h4, h5, hl, ih]
          · simp [rdGo, h0, h4, h5, hl, ih]
        · simp [rdGo, h0, h4, h5]
          exact Or.inl (fun he => h0 (by simp [he]))

/-- C8 counterexample.  A row with zero fields — the `csv` module's
parse of a blank line — has a field count that is neither 4 nor 5, yet
`read_description` skips it without the fatal exit. -/
theorem empty_row_not_fatal : descOk (read_description [[]]) = true := by
  decide

/-- C8 as amended.  The reader first skips rows with zero fields and
pads a 4-column row with an empty `Long`; it aborts fatally exactly when
some row's field count is none of 0, 4 and 5, and rows with field count
0, 4 or 5 are never fatal.  Processing a 4-column row is identical to
processing the same row with an empty fifth column appended. -/
theorem malformed_rows_fatal_amended :
    (∀ rows, read_description rows = Except.error () ↔
        ∃ r ∈ rows, ¬(r.length = 0 ∨ r.length = 4 ∨ r.length = 5)) ∧
    (∀ (row : List (List Char)) (rest : List (List (List Char)))
        (line : Nat) (st : DescSt), row.length = 4 →
        rdGo (row :: rest) line st = rdGo ((row ++ [[]]) :: rest) line st) := by
  constructor
  · intro rows
    exact rdGo_error_iff rows 0 descInit
  · intro row rest line st h4
    by_cases hl : line + 1 = 1
    · simp [rdGo, h4, hl, List.length_append]
    · simp [rdGo, h4, hl, List.length_append]

/-- Witness for the amended C8: a one-field row is fatal, and a concrete
4-column row is processed exactly like its 5-column padding. -/
theorem malformed_rows_fatal_amended_witness :
    read_description [[['a']]] = Except.error () ∧
    rdGo [[[], [], [], []]] 0 descInit =
      rdGo [[[], [], [], [], []]] 0 descInit :=
  ⟨(malformed_rows_fatal_amended.1 [[['a']]]).mpr (by decide),
   malformed_rows_fatal_amended.2 [[], [], [], []] [] 0 descInit (by decide)⟩

theorem mem_setUnion {t : List Char} {a b : List (List Char)} :
    t ∈ setUnion a b ↔ t ∈ a ∨ t ∈ b := by
  simp only [setUnion, List.mem_append, List.mem_filter,
    Bool.not_eq_true', decide_eq_false_iff_not]
  tauto

theorem expandLoop_some (g : List Char → Option (List (List Char)))
    (s : List Char) :
    ∀ (us : List (List Char)) (acc R : List (List Char)),
      expandLoop g s us acc = some R →
      ((∀ u ∈ us, u ≠ s → ∃ Ru, g u = some Ru) ∧
       (∀ t, t ∈ R ↔ t ∈ acc ∨
          ∃ u ∈ us, u ≠ s ∧ ∃ Ru, g u = some Ru ∧ t ∈ Ru)) := by
  intro us
  induction us with
  | nil =>
    intro acc R h
    have hacc : acc = R := by simpa [expandLoop] using h
    subst hacc
    constructor
    · intro u hu
      exact absurd hu (List.not_mem_nil u)
    · intro t
      simp
  | cons u rest ih =>
    intro acc R h
    by_cases hu : u = s
    · simp only [expandLoop, if_pos hu] at h
      obtain ⟨h1, h2⟩ := ih acc R h
      constructor
      · intro u2 hu2 hne
        rcases List.mem_cons.mp hu2 with rfl | hmem
        · exact absurd hu hne
        · exact h1 u2 hmem hne
      · intro t
        rw [h2 t]
        constructor
        · rintro (h | ⟨u2, hm, hne, Ru, hgu, ht⟩)
          · exact Or.inl h
          · exact Or.inr ⟨u2, List.mem_cons_of_mem u hm, hne, Ru, hgu, ht⟩
        · rintro (h | ⟨u2, hm, hne, Ru, hgu, ht⟩)
          · exact Or.inl h
          · rcases List.mem_cons.mp hm with rfl | hmem
            · exact absurd hu hne
            · exact Or.inr ⟨u2, hmem, hne, Ru, hgu, ht⟩
    · simp only [expandLoop, if_neg hu] at h
      cases hg : g u with
      | none =>
        rw [hg] at h
        exact absurd h (by simp)
      | some tu =>
        rw [hg] at h
        obtain ⟨h1, h2⟩ := ih (setUnion acc tu) R h
        constructor
        · intro u2 hu2 hne
          rcases List.mem_cons.mp hu2 with rfl | hmem
          · exact ⟨tu, hg⟩
          · exact h1 u2 hmem hne
        · intro t
          rw [h2 t, mem_setUnion]
          constructor
          · rintro ((h | h) | ⟨u2, hm, hne, Ru, hgu, ht⟩)
            · exact Or.inl h
            · exact Or.inr ⟨u, List.mem_cons_self u rest, hu, tu, hg, h⟩
            · exact Or.inr ⟨u2, List.mem_cons_of_mem u hm, hne, Ru, hgu, ht⟩
          · rintro (h | ⟨u2, hm, hne, Ru, hgu, ht⟩)
            · exact Or.inl (Or.inl h)
            · rcases List.mem_cons.mp hm with rfl | hmem
              · rw [hg] at hgu
                injection hgu with he
                subst he
                exact Or.inl (Or.inr ht)
              · exact Or.inr ⟨u2, hmem, hne, Ru, hgu, ht⟩

/-- C2.  Reference equation of grammar expansion: whenever the
fuel-indexed `expand_rules` returns a result set, that set is the
singleton of the input string if the string is finished (no `<`, no
`|`), and otherwise exactly the union, over every rule of the table and
every `|`-alternative of its right-hand side whose first-occurrence
substitution changes the string, of the recursively computed result sets
(each of which the call also computed successfully); substitutions that
leave the string unchanged contribute nothing. -/
theorem expand_rules_reference_equation (f : Nat)
    (rules : List (List Char × List Char)) (s : List Char)
    (R : List (List Char)) (h : expandRulesF (f + 1) rules s = some R) :
    (finished s = true → R = [s]) ∧
    (finished s = false →
      (∀ lhs rhs, (lhs, rhs) ∈ rules → ∀ c ∈ pySplitOn '|' rhs,
          replaceFirst lhs c s ≠ s →
          ∃ Ru, expandRulesF f rules (replaceFirst lhs c s) = some Ru) ∧
      (∀ t, t ∈ R ↔
        ∃ lhs rhs, (lhs, rhs) ∈ rules ∧ ∃ c ∈ pySplitOn '|' rhs,
          replaceFirst lhs c s ≠ s ∧
          ∃ Ru, expandRulesF f rules (replaceFirst lhs c s) = some Ru ∧
            t ∈ Ru)) := by
  by_cases hfin : finished s = true
  · simp only [expandRulesF, if_pos hfin] at h
    injection h with h
    refine ⟨fun _ => h.symm, fun hc => absurd hfin (by simp [hc])⟩
  · have hfin2 : finished s = false := by
      simpa using hfin
    simp only [expandRulesF, if_neg hfin] at h
    obtain ⟨h1, h2⟩ :=
      expandLoop_some (expandRulesF f rules) s (candidates rules s) [] R h
    refine ⟨fun hc => absurd hc hfin, fun _ => ⟨?_, ?_⟩⟩
    · intro lhs rhs hr c hc hne
      exact h1 _ (mem_candidates.mpr ⟨lhs, rhs, hr, c, hc, rfl⟩) hne
    · intro t
      rw [h2 t]
      simp only [List.not_mem_nil, false_or]
      constructor
      · rintro ⟨u, hm, hne, Ru, hg, ht⟩
        rcases mem_candidates.mp hm with ⟨lhs, rhs, hr, c, hc, rfl⟩
        exact ⟨lhs, rhs, hr, c, hc, hne, Ru, hg, ht⟩
      · rintro ⟨lhs, rhs, hr, c, hc, hne, Ru, hg, ht⟩
        exact ⟨_, mem_candidates.mpr ⟨lhs, rhs, hr, c, hc, rfl⟩, hne, Ru, hg, ht⟩

/-- Witness for C2 at the one-rule table with alternatives `a|b` and the
start string of its nonterminal. -/
theorem expand_rules_reference_equation_witness :
    (finished ['<', 's', '>'] = true → [['a'], ['b']] = [['<', 's', '>']]) ∧
    (finished ['<', 's', '>'] = false →
      (∀ lhs rhs, (lhs, rhs) ∈ [(['<', 's', '>'], ['a', '|', 'b'])] →
          ∀ c ∈ pySplitOn '|' rhs,
          replaceFirst lhs c ['<', 's', '>'] ≠ ['<', 's', '>'] →
          ∃ Ru, expandRulesF 1 [(['<', 's', '>'], ['a', '|', 'b'])]
              (replaceFirst lhs c ['<', 's', '>']) = some Ru) ∧
      (∀ t, t ∈ [['a'], ['b']] ↔
        ∃ lhs rhs, (lhs, rhs) ∈ [(['<', 's', '>'], ['a', '|', 'b'])] ∧
          ∃ c ∈ pySplitOn '|' rhs,
            replaceFirst lhs c ['<', 's', '>'] ≠ ['<', 's', '>'] ∧
            ∃ Ru, expandRulesF 1 [(['<', 's', '>'], ['a', '|', 'b'])]
                (replaceFirst lhs c ['<', 's', '>']) = some Ru ∧ t ∈ Ru)) :=
  expand_rules_reference_equation 1 [(['<', 's', '>'], ['a', '|', 'b'])]
    ['<', 's', '>'] [['a'], ['b']] (by decide)

/-! ### Structure of the camel-case scanner (claims C5, C6, C7) -/

theorem mp_append_Pa (l : List Char) : ∀ b,
    markPartsAux b (l ++ ['P', 'a']) =
      markPartsAux b l ++ ['_', 'P', 'a', '_'] := by
  induction l with
  | nil =>
    intro b
    cases b <;> decide
  | cons c cs ih =>
    intro b
    cases b
    · by_cases hu : isUpperA c <;> simp [markPartsAux, hu, ih]
    · by_cases hld : isLowerDigit c
      · simp [markPartsAux, hld, ih]
      · by_cases hu : isUpperA c <;> simp [markPartsAux, hld, hu, ih]

theorem mp_run (t : List Char) (r : List Char)
    (h : ∀ c ∈ t, isLowerDigit c = true) :
    markPartsAux true (t ++ r) = t ++ markPartsAux true r := by
  induction t with
  | nil => rfl
  | cons c cs ih =>
    have hc : isLowerDigit c = true := h c (by simp)
    have ih2 := ih (fun d hd => h d (by simp [hd]))
    simp [markPartsAux, hc, ih2]

theorem mp_true_shift (r : List Char)
    (h : ∀ d, r.head? = some d → isLowerDigit d = false) :
    markPartsAux true r = '_' :: markPartsAux false r := by
  cases r with
  | nil => rfl
  | cons d ds =>
    have hd : isLowerDigit d = false := h d (by simp)
    by_cases hu : isUpperA d <;>
      simp [markPartsAux, hd, hu]

theorem parts_cons_upper (c : Char) (cs : List Char)
    (hu : isUpperA c = true) :
    parts (c :: cs) =
      (c :: cs.takeWhile isLowerDigit) :: parts (cs.dropWhile isLowerDigit) := by
  have hstep : markParts (c :: cs) = '_' :: c :: markPartsAux true cs := by
    simp [markParts, markPartsAux, hu]
  have hsplit : cs.takeWhile isLowerDigit ++ cs.dropWhile isLowerDigit = cs :=
    List.takeWhile_append_dropWhile isLowerDigit cs
  have hrun : markPartsAux true cs =
      cs.takeWhile isLowerDigit ++ markPartsAux true (cs.dropWhile isLowerDigit) := by
    conv_lhs => rw [← hsplit]
    exact mp_run _ _ (fun d hd => List.mem_takeWhile_imp hd)
  have hshift : markPartsAux true (cs.dropWhile isLowerDigit) =
      '_' :: markPartsAux false (cs.dropWhile isLowerDigit) := by
    apply mp_true_shift
    intro d hd
    have := List.head?_dropWhile_not isLowerDigit cs
    rw [hd] at this
    exact this
  have hmark : markParts (c :: cs) =
      ('_' :: ((c :: cs.takeWhile isLowerDigit) ++
        '_' :: markParts (cs.dropWhile isLowerDigit))) := by
    rw [hstep, hrun, hshift]
    simp [markParts]
  unfold parts
  rw [hmark]
  have h1 : pySplitOn '_'
      ('_' :: ((c :: cs.takeWhile isLowerDigit) ++
        '_' :: markParts (cs.dropWhile isLowerDigit))) =
      [] :: (pySplitOn '_' (c :: cs.takeWhile isLowerDigit) ++
        pySplitOn '_' (markParts (cs.dropWhile isLowerDigit))) := by
    rw [show pySplitOn '_'
        ('_' :: ((c :: cs.takeWhile isLowerDigit) ++
          '_' :: markParts (cs.dropWhile isLowerDigit))) =
        [] :: pySplitOn '_'
          ((c :: cs.takeWhile isLowerDigit) ++
            '_' :: markParts (cs.dropWhile isLowerDigit)) from by
      simp [pySplitOn]]
    rw [pySplitOn_append_sep]
  have h2 : pySplitOn '_' (c :: cs.takeWhile isLowerDigit) =
      [c :: cs.takeWhile isLowerDigit] := by
    apply pySplitOn_no_sep
    intro d hd
    rcases List.mem_cons.mp hd with rfl | hmem
    · exact upper_ne_underscore hu
    · exact lowerDigit_ne_underscore (List.mem_takeWhile_imp hmem)
  rw [h1, h2]
  simp

theorem parts_append_Pa (l : List Char) :
    parts (l ++ ['P', 'a']) = parts l ++ [['P', 'a']] := by
  unfold parts markParts
  rw [mp_append_Pa l false]
  have hsep : markPartsAux false l ++ ['_', 'P', 'a', '_'] =
      markPartsAux false l ++ '_' :: ['P', 'a', '_'] := rfl
  rw [hsep, pySplitOn_append_sep]
  have h2 : pySplitOn '_' ['P', 'a', '_'] = [['P', 'a'], []] := by decide
  rw [h2]
  simp

theorem is_parameter_append_Pa (b : List Char) :
    is_parameter (b ++ ['P', 'a']) = some true := by
  unfold is_parameter
  rw [parts_append_Pa, List.getLast?_concat]
  simp

/-- C6 counterexample.  At the base name `XPa` — itself ending in the
parameter tag — appending `Pa` changes the kind: `kind("XPaPa")` is `Pa`
while `kind("XPa")` is `X`, refuting the claimed kind preservation for
every base name. -/
theorem kind_pa_counterexample :
    ¬ kind (['X', 'P', 'a'] ++ ['P', 'a']) = kind ['X', 'P', 'a'] := by
  decide

/-- C6 as amended.  Appending the tag `Pa` always appends one part `Pa`,
so `is_parameter(b + "Pa")` is true for every base `b`; and the kind is
preserved, `kind(b + "Pa") == kind(b)`, for every base that decomposes
into at least one part and is not already a parameter (its last part is
not `Pa`).  The restriction on the second half is forced by the
counterexample `b = "XPa"`, where the two kinds differ. -/
theorem parameter_kind_amended :
    ∀ b : List Char, is_parameter (b ++ ['P', 'a']) = some true ∧
      (is_parameter b = some false → kind (b ++ ['P', 'a']) = kind b) := by
  intro b
  refine ⟨is_parameter_append_Pa b, ?_⟩
  intro hb
  unfold is_parameter at hb
  cases hlast : (parts b).getLast? with
  | none =>
    rw [hlast] at hb
    simp at hb
  | some p =>
    rw [hlast] at hb
    simp only [Option.map_some'] at hb
    injection hb with hb
    have hpar : is_parameter b = some false := by
      unfold is_parameter
      rw [hlast]
      simp [hb]
    simp only [kind, hpar, is_parameter_append_Pa b]
    rw [parts_append_Pa, List.reverse_append]
    simp [hlast]

/-- Witness for the amended C6 at the non-parameter base name `GenP`. -/
theorem parameter_kind_amended_witness :
    is_parameter (['G', 'e', 'n', 'P'] ++ ['P', 'a']) = some true ∧
    kind (['G', 'e', 'n', 'P'] ++ ['P', 'a']) = kind ['G', 'e', 'n', 'P'] :=
  ⟨(parameter_kind_amended ['G', 'e', 'n', 'P']).1,
   (parameter_kind_amended ['G', 'e', 'n', 'P']).2 (by decide)⟩

/-! ### Decimal printing and parsing (claim C5) -/

theorem digitChar_isDigit {n : Nat} (h : n < 10) :
    isDigitA (digitChar n) = true := by
  interval_cases n <;> decide

theorem digitVal_digitChar {n : Nat} (h : n < 10) :
    digitVal (digitChar n) = n := by
  interval_cases n <;> decide

theorem toDecimalAux_digits : ∀ (f n : Nat), ∀ c ∈ toDecimalAux f n,
    isDigitA c = true := by
  intro f
  induction f with
  | zero => intro n c hc; exact absurd hc (List.not_mem_nil c)
  | succ f ih =>
    intro n c hc
    by_cases hn : n < 10
    · simp only [toDecimalAux, if_pos hn, List.mem_singleton] at hc
      exact hc ▸ digitChar_isDigit hn
    · simp only [toDecimalAux, if_neg hn, List.mem_append,
        List.mem_singleton] at hc
      rcases hc with hc | hc
      · exact ih (n / 10) c hc
      · exact hc ▸ digitChar_isDigit (Nat.mod_lt n (by omega))

theorem toDecimalAux_ne_nil : ∀ (f n : Nat), n < f → toDecimalAux f n ≠ [] := by
  intro f
  induction f with
  | zero => intro n h; omega
  | succ f _ =>
    intro n _
    by_cases hn : n < 10 <;> simp [toDecimalAux, hn]

theorem parseDigits_append_digit (a : List Char) (c : Char) :
    parseDigits (a ++ [c]) = 10 * parseDigits a + digitVal c := by
  simp [parseDigits, List.foldl_append]

theorem parseDigits_toDecimalAux : ∀ (f n : Nat), n < f →
    parseDigits (toDecimalAux f n) = n := by
  intro f
  induction f with
  | zero => intro n h; omega
  | succ f ih =>
    intro n hn
    by_cases h10 : n < 10
    · simp only [toDecimalAux, if_pos h10]
      have : parseDigits [digitChar n] = digitVal (digitChar n) := by
        simp [parseDigits]
      rw [this, digitVal_digitChar h10]
    · simp only [toDecimalAux, if_neg h10]
      rw [parseDigits_append_digit]
      have hdiv : n / 10 < f := by
        have := Nat.div_lt_self (show 0 < n by omega) (show 1 < 10 by omega)
        omega
      rw [ih (n / 10) hdiv, digitVal_digitChar (Nat.mod_lt n (by omega))]
      omega

theorem toDecimal_digits (n : Nat) : ∀ c ∈ toDecimal n, isDigitA c = true :=
  toDecimalAux_digits (n + 1) n

theorem toDecimal_ne_nil (n : Nat) : toDecimal n ≠ [] :=
  toDecimalAux_ne_nil (n + 1) n (by omega)

theorem parseDigits_toDecimal (n : Nat) : parseDigits (toDecimal n) = n :=
  parseDigits_toDecimalAux (n + 1) n (by omega)

/-! ### Splitting a run against a stopping suffix (claim C5) -/

theorem takeWhile_dropWhile_split (p : Char → Bool) (a b : List Char)
    (ha : ∀ c ∈ a, p c = true) (hb : ∀ d, b.head? = some d → p d = false) :
    (a ++ b).takeWhile p = a ∧ (a ++ b).dropWhile p = b := by
  have hbt : b.takeWhile p = [] := by
    cases b with
    | nil => rfl
    | cons d ds =>
      have hd : p d = false := hb d rfl
      simp [List.takeWhile_cons, hd]
  have hbd : b.dropWhile p = b := by
    cases b with
    | nil => rfl
    | cons d ds =>
      have hd : p d = false := hb d rfl
      simp [List.dropWhile_cons, hd]
  constructor
  · rw [List.takeWhile_append_of_pos ha, hbt, List.append_nil]
  · rw [List.dropWhile_append_of_pos ha, hbd]

theorem digit_isLowerDigit {c : Char} (h : isDigitA c = true) :
    isLowerDigit c = true := by
  simp [isLowerDigit, h]

theorem first_digit_filter_range : ∀ (a b : List Char),
    (∀ c ∈ a, isDigitA c = false) → ∀ d, b.head? = some d → isDigitA d = true →
    ((List.range (a ++ b).length).filter
        (fun i => isDigitA ((a ++ b).getD i ' '))).head? = some a.length := by
  intro a
  induction a with
  | nil =>
    intro b _ d hd hdig
    cases b with
    | nil => simp at hd
    | cons e es =>
      have he : e = d := by simpa using hd
      subst he
      simp only [List.nil_append, List.length_cons, List.range_succ_eq_map]
      rw [List.filter_cons]
      simp [hdig]
  | cons x a2 ih =>
    intro b hnd d hd hdig
    have hx : isDigitA x = false := hnd x (by simp)
    simp only [List.cons_append, List.length_cons, List.range_succ_eq_map]
    rw [List.filter_cons]
    simp only [List.getD_cons_zero, hx, Bool.false_eq_true, if_false]
    have hcomp :
        (List.filter (fun i => isDigitA ((x :: (a2 ++ b)).getD i ' '))
            ((List.range (a2 ++ b).length).map Nat.succ)) =
          ((List.range (a2 ++ b).length).filter
            (fun i => isDigitA ((a2 ++ b).getD i ' '))).map Nat.succ := by
      rw [List.filter_map]
      rfl
    rw [hcomp, List.head?_map]
    rw [ih b (fun c hc => hnd c (by simp [hc])) d hd hdig]
    rfl

theorem getD_mem : ∀ (l : List Char) (i : Nat), i < l.length →
    l.getD i ' ' ∈ l := by
  intro l
  induction l with
  | nil => intro i hi; simp at hi
  | cons c cs ih =>
    intro i hi
    cases i with
    | zero => simp
    | succ j =>
      rw [List.getD_cons_succ]
      exact List.mem_cons_of_mem c (ih j (by simpa using hi))

/-- C5.  Device-number extraction: for a device of the shape
`uppercase ++ lowercase-run ++ decimal(n)` followed by an
uppercase-or-underscore suffix, `device` returns the prefix with the
number and `device_number` returns `n`; and on any name whose device
contains no digit, `device_number` fails (the `digits[0]` access raises,
modelled as `none`). -/
theorem device_number_extraction :
    (∀ (P : Char) (ls : List Char) (n : Nat) (suffix : List Char),
      isUpperA P = true → (∀ c ∈ ls, isLowerA c = true) →
      1 ≤ n → n ≤ 100 →
      (∀ c ∈ suffix, isUpperA c = true ∨ c = '_') →
      device (P :: ls ++ toDecimal n ++ suffix) = P :: ls ++ toDecimal n ∧
      device_number (P :: ls ++ toDecimal n ++ suffix) = some n) ∧
    (∀ nm : List Char, (∀ c ∈ device nm, isDigitA c = false) →
      device_number nm = none) := by
  constructor
  · intro P ls n suffix hP hls hn1 hn2 hsuf
    have hld : ∀ c ∈ ls ++ toDecimal n, isLowerDigit c = true := by
      intro c hc
      rcases List.mem_append.mp hc with hc | hc
      · exact lower_isLowerDigit (hls c hc)
      · exact digit_isLowerDigit (toDecimal_digits n c hc)
    have hsufh : ∀ d, suffix.head? = some d → isLowerDigit d = false := by
      intro d hd
      have hmem : d ∈ suffix := by
        cases suffix with
        | nil => simp at hd
        | cons e es =>
          have : e = d := by simpa using hd
          subst this
          simp
      rcases hsuf d hmem with h | h
      · exact upper_not_lowerDigit h
      · subst h
        decide
    have hsplitTD :=
      takeWhile_dropWhile_split isLowerDigit (ls ++ toDecimal n) suffix hld hsufh
    have hparts : parts (P :: ls ++ toDecimal n ++ suffix) =
        (P :: (ls ++ toDecimal n)) :: parts suffix := by
      rw [show P :: ls ++ toDecimal n ++ suffix =
          P :: ((ls ++ toDecimal n) ++ suffix) by simp]
      rw [parts_cons_upper P ((ls ++ toDecimal n) ++ suffix) hP,
        hsplitTD.1, hsplitTD.2]
    have hdev : device (P :: ls ++ toDecimal n ++ suffix) =
        P :: ls ++ toDecimal n := by
      show (parts _).headD [] = _
      rw [hparts]
      rfl
    refine ⟨hdev, ?_⟩
    have hpartsnd : parts (P :: ls ++ toDecimal n) = [P :: (ls ++ toDecimal n)] := by
      rw [show P :: ls ++ toDecimal n = P :: (ls ++ toDecimal n) by simp]
      rw [parts_cons_upper P (ls ++ toDecimal n) hP]
      have h2 :=
        takeWhile_dropWhile_split isLowerDigit (ls ++ toDecimal n) [] hld
          (by intro d hd; simp at hd)
      rw [List.append_nil] at h2
      rw [h2.1, h2.2]
      rw [show parts ([] : List Char) = [] from by decide]
    have hdevnd : device (P :: ls ++ toDecimal n) = P :: ls ++ toDecimal n := by
      show (parts _).headD [] = _
      rw [hpartsnd]
      rfl
    obtain ⟨e, es, he⟩ :
        ∃ e es, toDecimal n = e :: es := by
      rcases hne : toDecimal n with _ | ⟨e, es⟩
      · exact absurd hne (toDecimal_ne_nil n)
      · exact ⟨e, es, rfl⟩
    have hedig : isDigitA e = true :=
      toDecimal_digits n e (by rw [he]; simp)
    have hfirst :=
      first_digit_filter_range (P :: ls) (toDecimal n)
        (by
          intro c hc
          rcases List.mem_cons.mp hc with rfl | hc2
          · exact upper_not_digit hP
          · exact lower_not_digit (hls c hc2))
        e (by rw [he]; rfl) hedig
    simp only [device_number]
    rw [hdev]
    rcases hfl : (List.range ((P :: ls ++ toDecimal n).length)).filter
        (fun i => isDigitA ((P :: ls ++ toDecimal n).getD i ' ')) with _ | ⟨i, t⟩
    · rw [show (P :: ls ++ toDecimal n : List Char) =
          (P :: ls) ++ toDecimal n by simp] at hfl
      rw [hfl] at hfirst
      simp at hfirst
    · rw [show (P :: ls ++ toDecimal n : List Char) =
          (P :: ls) ++ toDecimal n by simp] at hfl
      rw [hfl] at hfirst
      have hi : i = (P :: ls).length := by simpa using hfirst
      subst hi
      rw [hdevnd]
      show pyInt (List.drop ((P :: ls).length) ((P :: ls) ++ toDecimal n)) = some n
      rw [List.drop_left]
      unfold pyInt
      rw [if_pos ⟨toDecimal_ne_nil n,
        List.all_eq_true.mpr (fun c hc => toDecimal_digits n c hc)⟩]
      rw [parseDigits_toDecimal]
  · intro nm h
    have hfe : (List.range (device nm).length).filter
        (fun i => isDigitA ((device nm).getD i ' ')) = [] := by
      apply List.filter_eq_nil_iff.mpr
      intro i hi
      have hlt : i < (device nm).length := List.mem_range.mp hi
      have hm : (device nm).getD i ' ' ∈ device nm := getD_mem (device nm) i hlt
      intro hc
      rw [h _ hm] at hc
      exact Bool.false_ne_true hc
    simp only [device_number]
    rw [hfe]

/-- Witness for C5 at `Gen12P` (prefix `Gen`, number 12, suffix `P`) and,
for the failure half, at the digit-free name `Abc`. -/
theorem device_number_extraction_witness :
    (device ('G' :: ['e', 'n'] ++ toDecimal 12 ++ ['P']) =
        'G' :: ['e', 'n'] ++ toDecimal 12 ∧
      device_number ('G' :: ['e', 'n'] ++ toDecimal 12 ++ ['P']) = some 12) ∧
    device_number ['A', 'b', 'c'] = none :=
  ⟨device_number_extraction.1 'G' ['e', 'n'] 12 ['P'] (by decide) (by decide)
      (by decide) (by decide) (by decide),
   device_number_extraction.2 ['A', 'b', 'c'] (by decide)⟩

/-! ### The case round-trip (claim C7) -/

theorem lower_ne_underscore {c : Char} (h : isLowerA c = true) : ¬ c = '_' :=
  lowerDigit_ne_underscore (lower_isLowerDigit h)

theorem map_lower_run (t : List Char) (h : ∀ c ∈ t, isLowerDigit c = true) :
    t.map asciiLower = t := by
  induction t with
  | nil => rfl
  | cons c cs ih =>
    have hc := asciiLower_fix_of_lowerDigit (h c (by simp))
    have ih2 := ih (fun d hd => h d (by simp [hd]))
    simp [hc, ih2]

theorem ltn_false_run (t M : List Char)
    (h : ∀ c ∈ t, isLowerDigit c = true) :
    lower_to_name_aux false (t ++ M) = t ++ lower_to_name_aux false M := by
  induction t with
  | nil => rfl
  | cons c cs ih =>
    have hne : ¬ c = '_' := lowerDigit_ne_underscore (h c (by simp))
    have ih2 := ih (fun d hd => h d (by simp [hd]))
    simp [lower_to_name_aux, hne, ih2]

theorem ltn_part (c : Char) (run M : List Char) (hu : isUpperA c = true)
    (hr : ∀ x ∈ run, isLowerDigit x = true) :
    lower_to_name_aux true (List.map asciiLower (c :: run) ++ M) =
      c :: (run ++ lower_to_name_aux false M) := by
  have hlc : isLowerA (asciiLower c) = true := asciiLower_lower_of_upper hu
  have hne : ¬ asciiLower c = '_' := lower_ne_underscore hlc
  have hmap : List.map asciiLower run = run := map_lower_run run hr
  show lower_to_name_aux true
      (asciiLower c :: (List.map asciiLower run ++ M)) = _
  have hstep : lower_to_name_aux true
      (asciiLower c :: (List.map asciiLower run ++ M)) =
      asciiUpper (asciiLower c) ::
        lower_to_name_aux false (List.map asciiLower run ++ M) := by
    simp [lower_to_name_aux, hne]
  rw [hstep, asciiUpper_asciiLower hu, hmap, ltn_false_run run M hr]

theorem joinUnd_cons_of_ne_nil (p : List Char) (ps : List (List Char))
    (h : ps ≠ []) : joinUnd (p :: ps) = p ++ '_' :: joinUnd ps := by
  cases ps with
  | nil => exact absurd rfl h
  | cons q qs => rfl
theorem case_roundtrip_aux : ∀ (k : Nat) (nm : List Char), nm.length ≤ k →
    nm ≠ [] → isUpperA (nm.headD '?') = true →
    (∀ c ∈ nm, isAlnumA c = true) →
    lower_to_name (name_to_lower nm) = nm := by
  intro k
  induction k with
  | zero =>
    intro nm hlen hne _ _
    exact absurd (List.length_eq_zero.mp (Nat.le_zero.mp hlen)) hne
  | succ k ih =>
    intro nm hlen hne hhead halnum
    obtain ⟨c, cs, rfl⟩ : ∃ c cs, nm = c :: cs := by
      cases nm with
      | nil => exact absurd rfl hne
      | cons c cs => exact ⟨c, cs, rfl⟩
    have hu : isUpperA c = true := hhead
    have hsplit : cs.takeWhile isLowerDigit ++ cs.dropWhile isLowerDigit = cs :=
      List.takeWhile_append_dropWhile isLowerDigit cs
    have hrun_ld : ∀ x ∈ cs.takeWhile isLowerDigit, isLowerDigit x = true :=
      fun x hx => List.mem_takeWhile_imp hx
    have hparts : parts (c :: cs) =
        (c :: cs.takeWhile isLowerDigit) :: parts (cs.dropWhile isLowerDigit) :=
      parts_cons_upper c cs hu
    by_cases hrest : cs.dropWhile isLowerDigit = []
    · have hcs : cs.takeWhile isLowerDigit = cs := by
        conv_rhs => rw [← hsplit]
        rw [hrest, List.append_nil]
      have hpr : parts (cs.dropWhile isLowerDigit) = [] := by
        rw [hrest]
        decide
      unfold name_to_lower lower_to_name
      rw [hparts, hpr]
      show lower_to_name_aux true
        (List.map asciiLower (c :: cs.takeWhile isLowerDigit)) = c :: cs
      rw [← List.append_nil (List.map asciiLower (c :: cs.takeWhile isLowerDigit))]
      rw [ltn_part c (cs.takeWhile isLowerDigit) [] hu hrun_ld]
      rw [show lower_to_name_aux false [] = [] from rfl, List.append_nil]
      exact congrArg (List.cons c) hcs
    · obtain ⟨d, ds, hdds⟩ : ∃ d ds, cs.dropWhile isLowerDigit = d :: ds := by
        cases hr2 : cs.dropWhile isLowerDigit with
        | nil => exact absurd hr2 hrest
        | cons d ds => exact ⟨d, ds, rfl⟩
      have hrest_sub : cs.dropWhile isLowerDigit ⊆ cs :=
        (List.dropWhile_sublist isLowerDigit).subset
      have hd_upper : isUpperA d = true := by
        apply upper_of_alnum_not_lowerDigit
        · exact halnum d (List.mem_cons_of_mem c (hrest_sub (by rw [hdds]; simp)))
        · have hno := List.head?_dropWhile_not isLowerDigit cs
          rw [hdds] at hno
          simpa using hno
      have hpr_ne : parts (cs.dropWhile isLowerDigit) ≠ [] := by
        rw [hdds, parts_cons_upper d ds hd_upper]
        simp
      have hrest_len : (cs.dropWhile isLowerDigit).length ≤ k := by
        have h1 : (cs.dropWhile isLowerDigit).length ≤ cs.length :=
          (List.dropWhile_sublist isLowerDigit).length_le
        have h2 : cs.length + 1 ≤ k + 1 := by simpa using hlen
        omega
      have ihrest : lower_to_name (name_to_lower (cs.dropWhile isLowerDigit)) =
          cs.dropWhile isLowerDigit := by
        apply ih _ hrest_len hrest
        · rw [hdds]
          exact hd_upper
        · intro x hx
          exact halnum x (List.mem_cons_of_mem c (hrest_sub hx))
      unfold name_to_lower lower_to_name at ihrest ⊢
      rw [hparts, joinUnd_cons_of_ne_nil _ _ hpr_ne]
      rw [List.map_append]
      rw [show List.map asciiLower
          ('_' :: joinUnd (parts (cs.dropWhile isLowerDigit))) =
          '_' :: List.map asciiLower
            (joinUnd (parts (cs.dropWhile isLowerDigit))) from rfl]
      rw [ltn_part c (cs.takeWhile isLowerDigit)
        ('_' :: List.map asciiLower (joinUnd (parts (cs.dropWhile isLowerDigit))))
        hu hrun_ld]
      rw [show lower_to_name_aux false
          ('_' :: List.map asciiLower (joinUnd (parts (cs.dropWhile isLowerDigit)))) =
          lower_to_name_aux true
            (List.map asciiLower (joinUnd (parts (cs.dropWhile isLowerDigit)))) from by
        simp [lower_to_name_aux]]
      rw [ihrest, hsplit]

/-- C7.  Case round-trip: on a name matching `[A-Z][A-Za-z0-9]*` —
non-empty, uppercase first character, alphanumeric throughout —
`lower_to_name` is a right inverse of `name_to_lower`. -/
theorem case_roundtrip (nm : List Char) (hne : nm ≠ [])
    (hhead : isUpperA (nm.headD '?') = true)
    (halnum : ∀ c ∈ nm, isAlnumA c = true) :
    lower_to_name (name_to_lower nm) = nm :=
  case_roundtrip_aux nm.length nm (Nat.le_refl _) hne hhead halnum

/-- Witness for C7 at the concrete name `Wtg1InvTemp`. -/
theorem case_roundtrip_witness :
    lower_to_name (name_to_lower
      ['W', 't', 'g', '1', 'I', 'n', 'v', 'T', 'e', 'm', 'p']) =
      ['W', 't', 'g', '1', 'I', 'n', 'v', 'T', 'e', 'm', 'p'] :=
  case_roundtrip ['W', 't', 'g', '1', 'I', 'n', 'v', 'T', 'e', 'm', 'p']
    (by decide) (by decide) (by decide)
